import Mathlib

/-!
Verification of the lottery-draw core of the lp5-ny repository.

The repository has two algorithmic components:

* `handleDraw` (App.jsx): the derangement generator.  It filters the
  administrative user out of the participant list, rejects fewer than two
  eligible participants, and then repeats a Fisher–Yates shuffle of the
  eligible list (up to 100 attempts) until the shuffled list has no
  position whose participant id coincides with the id at the same
  position of the unshuffled eligible list.  On success the mapping
  `eligible[i].id -> shuffled[i].id` is produced (in the source it is
  written to the store as the `drawn_participant_id` field of each
  eligible participant).

* `getOrderedChain` (AdminPage.jsx): the cycle-chain builder.  It walks
  the giver-to-receiver mapping stored on the participant records and
  flattens it into an ordered list of links, cycle by cycle.

Both are modelled here as pure functions.  Randomness is modelled by a
stream `rand : Nat -> Nat`; call number `k` stands for the k-th call of
`Math.random()`, and `rand k % (i+1)` models
`Math.floor(Math.random() * (i+1))`, whose value set is exactly
`[0, i]`.  The store writes, the permission check on the current user
and all rendering are outside the modelled core.
-/

/-- A row of the `participants` table, restricted to the fields the two
algorithms read: `id` (the unique username key), `name` (display name)
and `drawn` (the `drawn_participant_id` column; `none` models SQL null
or a missing field). -/
structure Participant where
  id : String
  name : String
  drawn : Option String
deriving DecidableEq, Repr

/-- The administrative username (`ADMIN_USERNAME` in App.jsx). -/
def ADMIN_USERNAME : String := "admin"

/-- One JavaScript array swap `[a[i], a[j]] = [a[j], a[i]]`, modelled on
lists.  Out-of-range indices leave the list unchanged; the shuffle loop
only ever uses in-range indices. -/
def swapList (l : List α) (i j : Nat) : List α :=
  match l[i]?, l[j]? with
  | some a, some b => (l.set i b).set j a
  | _, _ => l

/-- The Fisher–Yates loop of `handleDraw`:
`for (let i = length - 1; i > 0; i--) { j = floor(random()*(i+1)); swap i j }`.
The first argument of the recursion is the loop index `i`; `ctr` counts
the `Math.random()` calls consumed so far. -/
def fisherYatesAux (rand : Nat → Nat) : Nat → Nat → List α → List α × Nat
  | 0, ctr, l => (l, ctr)
  | i+1, ctr, l => fisherYatesAux rand i (ctr+1) (swapList l (i+1) (rand ctr % (i+2)))

/-- One full in-place shuffle of `l`, returning the shuffled list and
the updated random-call counter. -/
def fisherYates (rand : Nat → Nat) (ctr : Nat) (l : List α) : List α × Nat :=
  fisherYatesAux rand (l.length - 1) ctr l

/-- The validation loop of `handleDraw`: the shuffle is accepted exactly
when no position holds a participant with the same id in the eligible
and in the shuffled list. -/
def isValidShuffle (eligible shuffled : List Participant) : Bool :=
  (eligible.zip shuffled).all fun pq => !(pq.1.id == pq.2.id)

/-- The retry loop `while (!valid && attempts < 100)` of `handleDraw`.
The JavaScript code shuffles the single array `shuffled` in place, so
every attempt reshuffles the result of the previous attempt; `n` is the
number of attempts still allowed. -/
def drawAttempts (rand : Nat → Nat) (eligible : List Participant) :
    Nat → Nat → List Participant → Option (List Participant)
  | 0, _, _ => none
  | n+1, ctr, shuffled =>
    let res := fisherYates rand ctr shuffled
    if isValidShuffle eligible res.1 then some res.1
    else drawAttempts rand eligible n res.2 res.1

/-- The two failure modes of `handleDraw`; in the source they are the
error strings `"Need at least 2 eligible participants (excluding admin)
to draw"` and `"Could not generate a valid draw. Please try again."`. -/
inductive DrawError where
  | invalidInputSize
  | noValidDerangement
deriving DecidableEq, Repr

/-- The eligible set of a draw: `participants.filter(p => p.id !== ADMIN_USERNAME)`. -/
def eligibleOf (participants : List Participant) : List Participant :=
  participants.filter fun p => !(p.id == ADMIN_USERNAME)

/-- The derangement-generating core of `handleDraw` (App.jsx lines
174-224): filter out the admin, reject fewer than two eligible
participants, retry the shuffle up to 100 times, and on success produce
the association `eligible[i].id -> shuffled[i].id` (the source stores
exactly these pairs as `drawn_participant_id` updates). -/
def handleDraw (rand : Nat → Nat) (participants : List Participant) :
    Except DrawError (List (String × String)) :=
  let eligibleParticipants := eligibleOf participants
  if eligibleParticipants.length < 2 then .error .invalidInputSize
  else
    match drawAttempts rand eligibleParticipants 100 0 eligibleParticipants with
    | none => .error .noValidDerangement
    | some shuffled => .ok ((eligibleParticipants.zip shuffled).map fun pq => (pq.1.id, pq.2.id))

/-- The state of the shuffled array after `k+1` shuffle attempts starting
from counter `ctr` and array `s` (attempt `k`, counted from 0). -/
def iterShuffle (rand : Nat → Nat) : Nat → Nat → List Participant → List Participant × Nat
  | 0, ctr, s => fisherYates rand ctr s
  | k+1, ctr, s => iterShuffle rand k (fisherYates rand ctr s).2 (fisherYates rand ctr s).1

/- ### Permutation facts about the shuffle -/

theorem cons_set_perm (l : List α) (i : Nat) (b c : α) (h : l[i]? = some b) :
    List.Perm (b :: l.set i c) (c :: l) := by
  induction l generalizing i with
  | nil => simp at h
  | cons x xs ih =>
    cases i with
    | zero =>
      simp only [List.getElem?_cons_zero, Option.some.injEq] at h
      subst h
      simp only [List.set_cons_zero]
      exact List.Perm.swap _ _ _
    | succ n =>
      simp only [List.getElem?_cons_succ] at h
      simp only [List.set_cons_succ]
      exact ((List.Perm.swap x b (xs.set n c)).trans ((ih n h).cons x)).trans
        (List.Perm.swap c x xs)

theorem set_set_perm (l : List α) (i j : Nat) (a b : α)
    (hi : l[i]? = some a) (hj : l[j]? = some b) :
    List.Perm ((l.set i b).set j a) l := by
  induction l generalizing i j with
  | nil => simp at hi
  | cons x xs ih =>
    cases i with
    | zero =>
      simp only [List.getElem?_cons_zero, Option.some.injEq] at hi
      subst hi
      cases j with
      | zero => simp
      | succ m =>
        simp only [List.getElem?_cons_succ] at hj
        simp only [List.set_cons_zero, List.set_cons_succ]
        exact cons_set_perm xs m b _ hj
    | succ n =>
      simp only [List.getElem?_cons_succ] at hi
      cases j with
      | zero =>
        simp only [List.getElem?_cons_zero, Option.some.injEq] at hj
        subst hj
        simp only [List.set_cons_succ, List.set_cons_zero]
        exact cons_set_perm xs n a _ hi
      | succ m =>
        simp only [List.getElem?_cons_succ] at hj
        simp only [List.set_cons_succ]
        exact (ih n m hi hj).cons x

theorem swapList_perm (l : List α) (i j : Nat) : List.Perm (swapList l i j) l := by
  unfold swapList
  split
  · rename_i a b hi hj
    exact set_set_perm l i j a b hi hj
  all_goals exact List.Perm.refl l

theorem fisherYatesAux_perm (rand : Nat → Nat) (i ctr : Nat) (l : List α) :
    List.Perm (fisherYatesAux rand i ctr l).1 l := by
  induction i generalizing ctr l with
  | zero => exact List.Perm.refl l
  | succ n ih =>
    exact (ih (ctr+1) (swapList l (n+1) (rand ctr % (n+2)))).trans
      (swapList_perm l (n+1) (rand ctr % (n+2)))

theorem fisherYates_perm (rand : Nat → Nat) (ctr : Nat) (l : List α) :
    List.Perm (fisherYates rand ctr l).1 l :=
  fisherYatesAux_perm rand (l.length - 1) ctr l

theorem drawAttempts_perm (rand : Nat → Nat) (eligible : List Participant) :
    ∀ (n ctr : Nat) (shuffled s : List Participant),
      drawAttempts rand eligible n ctr shuffled = some s → List.Perm s shuffled := by
  intro n
  induction n with
  | zero => intro ctr shuffled s h; simp [drawAttempts] at h
  | succ m ih =>
    intro ctr shuffled s h
    unfold drawAttempts at h
    by_cases hv : isValidShuffle eligible (fisherYates rand ctr shuffled).1 = true
    · simp only [hv, if_true] at h
      cases h
      exact fisherYates_perm rand ctr shuffled
    · simp only [hv, if_false] at h
      exact (ih _ _ s h).trans (fisherYates_perm rand ctr shuffled)

theorem drawAttempts_valid (rand : Nat → Nat) (eligible : List Participant) :
    ∀ (n ctr : Nat) (shuffled s : List Participant),
      drawAttempts rand eligible n ctr shuffled = some s →
      isValidShuffle eligible s = true := by
  intro n
  induction n with
  | zero => intro ctr shuffled s h; simp [drawAttempts] at h
  | succ m ih =>
    intro ctr shuffled s h
    unfold drawAttempts at h
    by_cases hv : isValidShuffle eligible (fisherYates rand ctr shuffled).1 = true
    · simp only [hv, if_true] at h
      cases h
      exact hv
    · simp only [hv, if_false] at h
      exact ih _ _ s h

theorem drawAttempts_eq_none_iff (rand : Nat → Nat) (eligible : List Participant) :
    ∀ (n ctr : Nat) (s : List Participant),
      drawAttempts rand eligible n ctr s = none ↔
      ∀ k < n, isValidShuffle eligible (iterShuffle rand k ctr s).1 = false := by
  intro n
  induction n with
  | zero => intro ctr s; simp [drawAttempts]
  | succ m ih =>
    intro ctr s
    unfold drawAttempts
    cases hv : isValidShuffle eligible (fisherYates rand ctr s).1 with
    | true =>
      constructor
      · intro h
        rw [if_pos hv] at h
        simp at h
      · intro h
        have h0 := h 0 (Nat.succ_pos m)
        rw [show iterShuffle rand 0 ctr s = fisherYates rand ctr s from rfl, hv] at h0
        cases h0
    | false =>
      have hnv : ¬ isValidShuffle eligible (fisherYates rand ctr s).1 = true := by
        rw [hv]; exact Bool.false_ne_true
      constructor
      · intro h k hk
        rw [if_neg hnv] at h
        rw [ih (fisherYates rand ctr s).2 (fisherYates rand ctr s).1] at h
        cases k with
        | zero =>
          rw [show iterShuffle rand 0 ctr s = fisherYates rand ctr s from rfl]
          exact hv
        | succ k₂ => exact h k₂ (Nat.lt_of_succ_lt_succ hk)
      · intro h
        rw [if_neg hnv]
        rw [ih (fisherYates rand ctr s).2 (fisherYates rand ctr s).1]
        intro k hk
        exact h (k+1) (Nat.succ_lt_succ hk)

theorem eq_snd_of_nodup_fst {β γ : Type _} :
    ∀ (m : List (β × γ)), (m.map Prod.fst).Nodup →
      ∀ (g : β) (r₁ r₂ : γ), (g, r₁) ∈ m → (g, r₂) ∈ m → r₁ = r₂ := by
  intro m
  induction m with
  | nil => intro _ g r₁ r₂ h; simp at h
  | cons p t ih =>
    intro hnd g r₁ r₂ h₁ h₂
    simp only [List.map_cons, List.nodup_cons] at hnd
    rcases List.mem_cons.mp h₁ with he₁ | ht₁
    · rcases List.mem_cons.mp h₂ with he₂ | ht₂
      · have h12 : (g, r₁) = (g, r₂) := he₁.trans he₂.symm
        exact (Prod.ext_iff.mp h12).2
      · exfalso
        apply hnd.1
        rw [← he₁]
        exact List.mem_map.mpr ⟨(g, r₂), ht₂, rfl⟩
    · rcases List.mem_cons.mp h₂ with he₂ | ht₂
      · exfalso
        apply hnd.1
        rw [← he₂]
        exact List.mem_map.mpr ⟨(g, r₁), ht₁, rfl⟩
      · exact ih hnd.2 g r₁ r₂ ht₁ ht₂

theorem eq_fst_of_nodup_snd {β γ : Type _} (m : List (β × γ))
    (hnd : (m.map Prod.snd).Nodup) (r : γ) (g₁ g₂ : β)
    (h₁ : (g₁, r) ∈ m) (h₂ : (g₂, r) ∈ m) : g₁ = g₂ := by
  have hsnd : ((m.map Prod.swap).map Prod.fst).Nodup := by
    rw [List.map_map]
    exact hnd
  exact eq_snd_of_nodup_fst (m.map Prod.swap) hsnd r g₁ g₂
    (List.mem_map.mpr ⟨(g₁, r), h₁, rfl⟩)
    (List.mem_map.mpr ⟨(g₂, r), h₂, rfl⟩)

/-- C1: whenever `handleDraw` succeeds on an eligible set of at least two
distinct identifiers, the mapping it produces
(`eligible[i].id -> shuffled[i].id`) is a total bijection on the
eligible identifiers with zero fixed points: the givers are exactly the
eligible identifiers, the receivers are a duplicate-free permutation of
them, every identifier has exactly one outgoing and exactly one incoming
pair, and no pair relates an identifier to itself. -/
theorem handleDraw_ok_derangement (rand : Nat → Nat) (participants : List Participant)
    (hnd : ((eligibleOf participants).map (fun p => p.id)).Nodup)
    (m : List (String × String)) (hok : handleDraw rand participants = Except.ok m) :
    m.map Prod.fst = (eligibleOf participants).map (fun p => p.id) ∧
    List.Perm (m.map Prod.snd) ((eligibleOf participants).map (fun p => p.id)) ∧
    (m.map Prod.snd).Nodup ∧
    (∀ pq ∈ m, pq.1 ≠ pq.2) ∧
    (∀ g ∈ (eligibleOf participants).map (fun p => p.id), ∃! r, (g, r) ∈ m) ∧
    (∀ r ∈ (eligibleOf participants).map (fun p => p.id), ∃! g, (g, r) ∈ m) := by
  simp only [handleDraw] at hok
  by_cases hlen : (eligibleOf participants).length < 2
  · rw [if_pos hlen] at hok; simp at hok
  · rw [if_neg hlen] at hok
    cases hda : drawAttempts rand (eligibleOf participants) 100 0 (eligibleOf participants) with
    | none => rw [hda] at hok; simp at hok
    | some shuffled =>
      rw [hda] at hok
      have hm : m = ((eligibleOf participants).zip shuffled).map (fun pq => (pq.1.id, pq.2.id)) := by
        injection hok with h
        exact h.symm
      have hperm : List.Perm shuffled (eligibleOf participants) :=
        drawAttempts_perm rand _ 100 0 _ shuffled hda
      have hlens : (eligibleOf participants).length ≤ shuffled.length :=
        le_of_eq hperm.length_eq.symm
      have hlens2 : shuffled.length ≤ (eligibleOf participants).length :=
        le_of_eq hperm.length_eq
      have hvalid := drawAttempts_valid rand _ 100 0 _ shuffled hda
      have hval : ∀ pq ∈ (eligibleOf participants).zip shuffled, pq.1.id ≠ pq.2.id := by
        intro pq hpq
        have hb := List.all_eq_true.mp hvalid pq hpq
        simpa using hb
      have hfst : m.map Prod.fst = (eligibleOf participants).map (fun p => p.id) := by
        rw [hm, List.map_map]
        have hc : (Prod.fst ∘ fun pq : Participant × Participant => (pq.1.id, pq.2.id))
            = (fun p => p.id) ∘ Prod.fst := rfl
        rw [hc, ← List.map_map, List.map_fst_zip _ _ hlens]
      have hsnd : m.map Prod.snd = shuffled.map (fun p => p.id) := by
        rw [hm, List.map_map]
        have hc : (Prod.snd ∘ fun pq : Participant × Participant => (pq.1.id, pq.2.id))
            = (fun p => p.id) ∘ Prod.snd := rfl
        rw [hc, ← List.map_map, List.map_snd_zip _ _ hlens2]
      have hsndperm :
          List.Perm (m.map Prod.snd) ((eligibleOf participants).map fun p => p.id) := by
        rw [hsnd]
        exact hperm.map _
      have hsndnd : (m.map Prod.snd).Nodup := hsndperm.symm.nodup hnd
      have hfstnd : (m.map Prod.fst).Nodup := by rw [hfst]; exact hnd
      have hfix : ∀ pq ∈ m, pq.1 ≠ pq.2 := by
        intro pq hpq
        rw [hm] at hpq
        rcases List.mem_map.mp hpq with ⟨ab, hab, rfl⟩
        exact hval ab hab
      refine ⟨hfst, hsndperm, hsndnd, hfix, ?_, ?_⟩
      · intro g hg
        rw [← hfst] at hg
        rcases List.mem_map.mp hg with ⟨pq, hpq, rfl⟩
        refine ⟨pq.2, by simpa using hpq, ?_⟩
        intro r hr
        exact eq_snd_of_nodup_fst m hfstnd pq.1 r pq.2 hr (by simpa using hpq)
      · intro r hr
        have hr2 : r ∈ m.map Prod.snd := hsndperm.mem_iff.mpr hr
        rcases List.mem_map.mp hr2 with ⟨pq, hpq, rfl⟩
        refine ⟨pq.1, by simpa using hpq, ?_⟩
        intro g hg
        exact eq_fst_of_nodup_snd m hsndnd pq.2 g pq.1 hg (by simpa using hpq)

/-- Witness for C1 at a concrete input: with a scripted random source
that always returns 0, the draw on two participants succeeds with the
swap mapping, whose receiver column is duplicate-free. -/
theorem handleDraw_ok_derangement_witness :
    (([("a", "b"), ("b", "a")] : List (String × String)).map Prod.snd).Nodup :=
  (handleDraw_ok_derangement (fun _ => 0)
    [⟨"a", "A", none⟩, ⟨"b", "B", none⟩] (by decide)
    [("a", "b"), ("b", "a")] (by rfl)).2.2.1

/-- C4: with at least two eligible participants, `handleDraw` fails with
`noValidDerangement` exactly when none of the 100 successive shuffle
attempts (each reshuffling the previous state) passes the fixed-point
validation; and whenever it returns a mapping at all, that mapping has
no fixed point, so an invalid permutation is never returned as a
result. -/
theorem handleDraw_attempt_cap (rand : Nat → Nat) (participants : List Participant)
    (h2 : 2 ≤ (eligibleOf participants).length) :
    (handleDraw rand participants = Except.error DrawError.noValidDerangement ↔
      ∀ k < 100, isValidShuffle (eligibleOf participants)
        (iterShuffle rand k 0 (eligibleOf participants)).1 = false) ∧
    (∀ m, handleDraw rand participants = Except.ok m → ∀ pq ∈ m, pq.1 ≠ pq.2) := by
  have hlen : ¬ (eligibleOf participants).length < 2 := Nat.not_lt.mpr h2
  constructor
  · rw [show handleDraw rand participants
        = (match drawAttempts rand (eligibleOf participants) 100 0 (eligibleOf participants) with
           | none => Except.error DrawError.noValidDerangement
           | some shuffled => Except.ok (((eligibleOf participants).zip shuffled).map
               fun pq => (pq.1.id, pq.2.id))) from by
      simp only [handleDraw]
      rw [if_neg hlen]]
    cases hda : drawAttempts rand (eligibleOf participants) 100 0 (eligibleOf participants) with
    | none =>
      simp only []
      constructor
      · intro _
        exact (drawAttempts_eq_none_iff rand (eligibleOf participants) 100 0
          (eligibleOf participants)).mp hda
      · intro _
        trivial
    | some shuffled =>
      simp only []
      constructor
      · intro h; simp at h
      · intro hall
        exfalso
        have hnone : drawAttempts rand (eligibleOf participants) 100 0
            (eligibleOf participants) = none :=
          (drawAttempts_eq_none_iff rand (eligibleOf participants) 100 0
            (eligibleOf participants)).mpr hall
        rw [hda] at hnone
        cases hnone
  · intro m hok pq hpq
    simp only [handleDraw] at hok
    rw [if_neg hlen] at hok
    cases hda : drawAttempts rand (eligibleOf participants) 100 0 (eligibleOf participants) with
    | none => rw [hda] at hok; simp at hok
    | some shuffled =>
      rw [hda] at hok
      have hm : m = ((eligibleOf participants).zip shuffled).map (fun ab => (ab.1.id, ab.2.id)) := by
        injection hok with h
        exact h.symm
      rw [hm] at hpq
      rcases List.mem_map.mp hpq with ⟨ab, hab, rfl⟩
      have hvalid := drawAttempts_valid rand _ 100 0 _ shuffled hda
      have hb := List.all_eq_true.mp hvalid ab hab
      simpa using hb

/-- Witness for C4 at a concrete input: a scripted random source that
always returns 1 makes every Fisher–Yates pass on a two-element list
the identity, so all 100 attempts fail and `handleDraw` reports
`noValidDerangement`. -/
theorem handleDraw_attempt_cap_witness :
    handleDraw (fun _ => 1) [⟨"a", "A", none⟩, ⟨"b", "B", none⟩]
      = Except.error DrawError.noValidDerangement :=
  ((handleDraw_attempt_cap (fun _ => 1) [⟨"a", "A", none⟩, ⟨"b", "B", none⟩]
      (by decide)).1).mpr (by decide)

/-- C5: when the eligible set (the participants minus the admin) has
fewer than two members, `handleDraw` rejects with `invalidInputSize`,
and the result does not depend on the random source at all: no shuffle
attempt is consumed. -/
theorem handleDraw_invalidInputSize (rand rand₂ : Nat → Nat) (participants : List Participant)
    (h : (eligibleOf participants).length < 2) :
    handleDraw rand participants = Except.error DrawError.invalidInputSize ∧
    handleDraw rand participants = handleDraw rand₂ participants := by
  have h1 : handleDraw rand participants = Except.error DrawError.invalidInputSize := by
    simp only [handleDraw]
    rw [if_pos h]
  have h2 : handleDraw rand₂ participants = Except.error DrawError.invalidInputSize := by
    simp only [handleDraw]
    rw [if_pos h]
  exact ⟨h1, h1.trans h2.symm⟩

/-- Witness for C5 at a concrete input: a single non-admin participant
is rejected as an invalid input size, for any random source. -/
theorem handleDraw_invalidInputSize_witness :
    handleDraw (fun _ => 0) [⟨"a", "A", none⟩] = Except.error DrawError.invalidInputSize :=
  (handleDraw_invalidInputSize (fun _ => 0) (fun _ => 1) [⟨"a", "A", none⟩] (by decide)).1

/- ### The cycle-chain builder -/

/-- A row of the chain built by `getOrderedChain`: the giver display
name, the receiver display name, and the receiver identifier kept to
find the next giver (`{ giver, receiver, receiverId }` in the
source). -/
structure Link where
  giver : String
  receiver : String
  receiverId : String
deriving DecidableEq, Repr

/-- `new Map(participants.map(p => [p.id, p]))` followed by `.get`:
with duplicate ids the later entry overwrites the earlier one, so the
lookup returns the last matching record; `.get` applied to a missing
key, or to the null/undefined receiver id of a record with no draw,
returns undefined (`none`). -/
def participantMapGet (participants : List Participant) : Option String → Option Participant
  | none => none
  | some s => participants.reverse.find? fun p => p.id == s

/-- JavaScript truthiness of `p.drawn_participant_id` as used in the
filter `p => p.id !== 'admin' && p.drawn_participant_id`: null,
undefined and the empty string are falsy, every other string truthy. -/
def truthyId : Option String → Bool
  | none => false
  | some s => !(s == "")

/-- `validParticipants`: the participants eligible to start a cycle
walk (non-admin with a recorded draw). -/
def validParticipantsOf (participants : List Participant) : List Participant :=
  participants.filter fun p => !(p.id == ADMIN_USERNAME) && truthyId p.drawn

/-- The inner cycle walk of `getOrderedChain`
(`while (current && !visited.has(current.id))`): mark the current
participant visited, look its receiver up in the participant map, and
on success append a link and continue from the receiver; on a failed
lookup stop the cycle (the `break` branch), the giver staying visited
but contributing no link.  The walk carries explicit fuel; fuel
`participants.length + 1` always suffices because every iteration
visits the id of a distinct stored participant
(`walk_fuel_irrelevant`). -/
def walk (participants : List Participant) :
    Nat → Option Participant → List String → List Link → List String × List Link
  | 0, _, visited, chain => (visited, chain)
  | _+1, none, visited, chain => (visited, chain)
  | fuel+1, some c, visited, chain =>
    if c.id ∈ visited then (visited, chain)
    else
      match participantMapGet participants c.drawn with
      | some receiver =>
        walk participants fuel (some receiver) (c.id :: visited)
          (chain ++ [⟨c.name, receiver.name, receiver.id⟩])
      | none => (c.id :: visited, chain)

/-- The leftover-cycles loop of `getOrderedChain`
(`while (remaining.length > 0)`): start a new walk from the first
not-yet-visited valid participant, recompute the remainder, repeat.
Fuel `validParticipants.length + 1` always suffices because each pass
visits at least its starting participant
(`remainingLoop_fuel_irrelevant`). -/
def remainingLoop (participants valid : List Participant) :
    Nat → List String → List Link → List Link
  | 0, _, chain => chain
  | fuel+1, visited, chain =>
    match valid.filter (fun p => decide (p.id ∉ visited)) with
    | [] => chain
    | nextStart :: _ =>
      let vc := walk participants (participants.length + 1) (some nextStart) visited chain
      remainingLoop participants valid fuel vc.1 vc.2

/-- The cycle-chain builder `getOrderedChain` (AdminPage.jsx lines
34-111): return the empty chain on an empty participant list or when
nobody valid remains, otherwise walk the first cycle from the first
valid participant and then exhaust the leftover cycles. -/
def getOrderedChain (participants : List Participant) : List Link :=
  if participants.length = 0 then []
  else
    let validParticipants := validParticipantsOf participants
    if validParticipants.isEmpty then []
    else
      let vc := walk participants (participants.length + 1) validParticipants.head? [] []
      remainingLoop participants validParticipants (validParticipants.length + 1) vc.1 vc.2

/-- C6: on the two disjoint 2-cycles A-B and C-D, listed in the order
[A, B, C, D], the chain shows the first cycle in full ((A,B) then
(B,A)) before the second cycle ((C,D) then (D,C)), each new cycle
starting from the first unvisited participant in input order. -/
theorem getOrderedChain_two_cycles :
    getOrderedChain
      [⟨"A", "A", some "B"⟩, ⟨"B", "B", some "A"⟩,
       ⟨"C", "C", some "D"⟩, ⟨"D", "D", some "C"⟩]
      = [⟨"A", "B", "B"⟩, ⟨"B", "A", "A"⟩, ⟨"C", "D", "D"⟩, ⟨"D", "C", "C"⟩] := by
  decide

/-- C7: the chain builder is deterministic; two calls on the same
participant records (the mapping together with its order hint) return
the same chain.  The source computes the chain from its inputs alone,
with no hidden state, which the pure model makes definitional. -/
theorem getOrderedChain_deterministic (participants : List Participant) :
    getOrderedChain participants = getOrderedChain participants := rfl

/-- C10: an empty participant list, and more generally any list in
which no non-admin participant has a recorded (truthy) receiver,
produces the empty chain rather than an error. -/
theorem getOrderedChain_no_draws_empty (participants : List Participant)
    (h : ∀ p ∈ participants, p.id ≠ ADMIN_USERNAME → truthyId p.drawn = false) :
    getOrderedChain participants = [] := by
  have hvalid : validParticipantsOf participants = [] := by
    rw [validParticipantsOf, List.filter_eq_nil_iff]
    intro p hp
    by_cases hid : p.id = ADMIN_USERNAME
    · simp [hid]
    · simp [hid, h p hp hid]
  rw [getOrderedChain]
  by_cases hlen : participants.length = 0
  · rw [if_pos hlen]
  · rw [if_neg hlen]
    simp only [hvalid, List.isEmpty_nil, if_true]

/-- Witness for C10 at a concrete input: one participant with no draw
and the admin with a recorded draw yield the empty chain. -/
theorem getOrderedChain_no_draws_empty_witness :
    getOrderedChain [⟨"a", "A", none⟩, ⟨"admin", "Admin", some "a"⟩] = [] :=
  getOrderedChain_no_draws_empty [⟨"a", "A", none⟩, ⟨"admin", "Admin", some "a"⟩]
    (by decide)

theorem participantMapGet_mem (participants : List Participant) (o : Option String)
    (q : Participant) (h : participantMapGet participants o = some q) :
    q ∈ participants ∧ o = some q.id := by
  cases o with
  | none => simp [participantMapGet] at h
  | some s =>
    simp only [participantMapGet] at h
    have hmem : q ∈ participants := List.mem_reverse.mp (List.mem_of_find?_eq_some h)
    have hid : q.id = s := by simpa using List.find?_some h
    exact ⟨hmem, by rw [hid]⟩

/-- Provenance of a chain link: it was formed from a stored giver record
whose recorded receiver id resolved to a stored receiver record. -/
def LinkSound (participants : List Participant) (l : Link) : Prop :=
  ∃ p q, p ∈ participants ∧ q ∈ participants ∧ p.drawn = some q.id ∧
    l = ⟨p.name, q.name, q.id⟩

theorem walk_links (participants : List Participant) :
    ∀ (fuel : Nat) (cur : Option Participant) (visited : List String) (chain : List Link),
      (∀ c, cur = some c → c ∈ participants) →
      (∀ l ∈ chain, LinkSound participants l) →
      ∀ l ∈ (walk participants fuel cur visited chain).2, LinkSound participants l := by
  intro fuel
  induction fuel with
  | zero => intro cur visited chain _ hchain; exact hchain
  | succ n ih =>
    intro cur visited chain hcur hchain
    cases cur with
    | none => exact hchain
    | some c =>
      simp only [walk]
      by_cases hv : c.id ∈ visited
      · rw [if_pos hv]; exact hchain
      · rw [if_neg hv]
        cases hlook : participantMapGet participants c.drawn with
        | none => exact hchain
        | some q =>
          rcases participantMapGet_mem participants c.drawn q hlook with ⟨hqmem, hdrawn⟩
          refine ih (some q) (c.id :: visited) (chain ++ [⟨c.name, q.name, q.id⟩]) ?_ ?_
          · intro d hd
            cases hd
            exact hqmem
          · intro l hl
            rcases List.mem_append.mp hl with hin | hone
            · exact hchain l hin
            · rw [List.mem_singleton.mp hone]
              exact ⟨c, q, hcur c rfl, hqmem, hdrawn, rfl⟩

theorem remainingLoop_links (participants valid : List Participant)
    (hsub : ∀ p ∈ valid, p ∈ participants) :
    ∀ (fuel : Nat) (visited : List String) (chain : List Link),
      (∀ l ∈ chain, LinkSound participants l) →
      ∀ l ∈ remainingLoop participants valid fuel visited chain, LinkSound participants l := by
  intro fuel
  induction fuel with
  | zero => intro visited chain hchain; exact hchain
  | succ n ih =>
    intro visited chain hchain
    simp only [remainingLoop]
    cases hf : valid.filter (fun p => decide (p.id ∉ visited)) with
    | nil => exact hchain
    | cons nextStart rest =>
      have hns : nextStart ∈ valid := by
        have hmem : nextStart ∈ valid.filter (fun p => decide (p.id ∉ visited)) := by
          rw [hf]; exact List.mem_cons_self _ _
        exact (List.mem_filter.mp hmem).1
      refine ih _ _ (walk_links participants (participants.length + 1) (some nextStart)
        visited chain ?_ hchain)
      intro c hc
      cases hc
      exact hsub nextStart hns

theorem getOrderedChain_sound (participants : List Participant) :
    ∀ l ∈ getOrderedChain participants, LinkSound participants l := by
  rw [getOrderedChain]
  by_cases h0 : participants.length = 0
  · rw [if_pos h0]
    intro l hl
    cases hl
  · rw [if_neg h0]
    by_cases he : (validParticipantsOf participants).isEmpty = true
    · rw [if_pos he]
      intro l hl
      cases hl
    · rw [if_neg he]
      refine remainingLoop_links participants (validParticipantsOf participants)
        (fun p hp => (List.mem_filter.mp hp).1) _ _ _
        (walk_links participants (participants.length + 1)
          (validParticipantsOf participants).head? [] [] ?_ (by intro l hl; cases hl))
      intro c hc
      exact (List.mem_filter.mp (List.mem_of_mem_head? hc)).1

/-- C9 counterexample: the valid-participant filter only restricts the
STARTING points of cycle walks; the walk itself follows receivers
through the unfiltered participant map.  When the admin record has a
recorded receiver and is itself somebody's receiver, the walk passes
through the admin and emits a link whose giver is the admin.  Here the
chain contains the link (admin -> Alice), produced from the admin
record, so the claim that no link ever has the administrative
identifier as its giver is false. -/
theorem getOrderedChain_admin_giver_cex :
    getOrderedChain [⟨"a", "Alice", some "admin"⟩, ⟨"admin", "admin", some "a"⟩]
      = [⟨"Alice", "admin", "admin"⟩, ⟨"admin", "Alice", "a"⟩] := by
  decide

/-- C9 (amended): every link of a chain comes from a stored giver
record with a present (non-null) recorded receiver that resolves to a
stored receiver record, so no link has a giver with a null or missing
receiver field; and under the additional assumption that every
admin record has no recorded receiver (which is how `handleDraw`
leaves the admin, since the admin is excluded from the draw), no link
has the admin as its giver. -/
theorem getOrderedChain_givers (participants : List Participant) :
    (∀ l ∈ getOrderedChain participants,
        ∃ p q, p ∈ participants ∧ q ∈ participants ∧
          p.drawn = some q.id ∧ l = ⟨p.name, q.name, q.id⟩) ∧
    ((∀ p ∈ participants, p.id = ADMIN_USERNAME → p.drawn = none) →
      ∀ l ∈ getOrderedChain participants,
        ∃ p q, p ∈ participants ∧ q ∈ participants ∧ p.id ≠ ADMIN_USERNAME ∧
          p.drawn = some q.id ∧ l = ⟨p.name, q.name, q.id⟩) := by
  constructor
  · exact getOrderedChain_sound participants
  · intro hadmin l hl
    rcases getOrderedChain_sound participants l hl with ⟨p, q, hp, hq, hd, hlk⟩
    refine ⟨p, q, hp, hq, ?_, hd, hlk⟩
    intro hpa
    rw [hadmin p hp hpa] at hd
    cases hd

/-- Witness for C9 (amended) at a concrete input: in the two-cycle
a-b (with the admin having no draw), the first link is sourced from the
non-admin giver record of a. -/
theorem getOrderedChain_givers_witness :
    ∃ p q : Participant,
      p ∈ ([⟨"a", "A", some "b"⟩, ⟨"b", "B", some "a"⟩,
           ⟨"admin", "Admin", none⟩] : List Participant) ∧
      q ∈ ([⟨"a", "A", some "b"⟩, ⟨"b", "B", some "a"⟩,
           ⟨"admin", "Admin", none⟩] : List Participant) ∧
      p.id ≠ ADMIN_USERNAME ∧ p.drawn = some q.id ∧
      Link.mk "A" "B" "b" = ⟨p.name, q.name, q.id⟩ :=
  (getOrderedChain_givers
      [⟨"a", "A", some "b"⟩, ⟨"b", "B", some "a"⟩, ⟨"admin", "Admin", none⟩]).2
    (by decide) ⟨"A", "B", "b"⟩ (by decide)

/-- C3 counterexample: a mapping whose sole giver points at an
identifier absent from the domain produces the empty chain — exactly
the output of an empty participant list.  `getOrderedChain` returns a
plain, silently truncated chain with no fault marker of any kind, so
the claim that an `InconsistentMapping` fault is surfaced distinctly is
false. -/
theorem getOrderedChain_inconsistent_silent_cex :
    getOrderedChain [⟨"a", "Alice", some "ghost"⟩] = [] ∧
    getOrderedChain ([] : List Participant) = [] := by
  constructor <;> decide

/-- C3 (amended): on a giver whose recorded receiver id resolves to no
stored participant, the walk breaks out of the cycle after marking the
giver visited and WITHOUT appending a link or any fault marker; the
chain is silently truncated.  For a one-participant domain with a
dangling receiver id the result is the empty chain, indistinguishable
from the output for an empty store. -/
theorem getOrderedChain_inconsistent_truncates (p : Participant) (r : String)
    (hdrawn : p.drawn = some r) (hr : r ≠ "") (hne : p.id ≠ ADMIN_USERNAME)
    (hmiss : r ≠ p.id) :
    getOrderedChain [p] = [] ∧ getOrderedChain [p] = getOrderedChain [] := by
  have hpr : (p.id == r) = false := beq_eq_false_iff_ne.mpr (Ne.symm hmiss)
  have hvalid : validParticipantsOf [p] = [p] := by
    simp [validParticipantsOf, truthyId, hdrawn, hne, hr]
  have hlookup : participantMapGet [p] p.drawn = none := by
    rw [hdrawn]
    simp [participantMapGet, List.find?, hpr]
  have hwalk : walk [p] ([p].length + 1) (some p) [] [] = ([p.id], []) := by
    show walk [p] 2 (some p) [] [] = ([p.id], [])
    have hni : p.id ∉ ([] : List String) := by simp
    rw [walk, if_neg hni, hlookup]
  have hmain : getOrderedChain [p] = [] := by
    rw [getOrderedChain]
    rw [if_neg (by simp : ¬ ([p] : List Participant).length = 0)]
    simp only [hvalid]
    rw [if_neg (by simp : ¬ ([p] : List Participant).isEmpty = true)]
    simp only [List.head?]
    rw [hwalk]
    rw [remainingLoop]
    simp
  exact ⟨hmain, by rw [hmain]; rfl⟩

/-- Witness for C3 (amended) at a concrete input: one participant whose
receiver id "ghost" is not a stored id yields the empty chain. -/
theorem getOrderedChain_inconsistent_truncates_witness :
    getOrderedChain [⟨"a", "Alice", some "ghost"⟩] = [] ∧
    getOrderedChain [⟨"a", "Alice", some "ghost"⟩] = getOrderedChain [] :=
  getOrderedChain_inconsistent_truncates ⟨"a", "Alice", some "ghost"⟩ "ghost"
    (by decide) (by decide) (by decide) (by decide)

/- ### Termination of the chain builder: fuel irrelevance -/

theorem length_filter_lt {α : Type _} (l : List α) (q₁ q₂ : α → Bool)
    (himp : ∀ x ∈ l, q₂ x = true → q₁ x = true)
    (a : α) (ha : a ∈ l) (ha₁ : q₁ a = true) (ha₂ : q₂ a = false) :
    (l.filter q₂).length < (l.filter q₁).length := by
  have heq : l.filter q₂ = (l.filter q₁).filter q₂ := by
    rw [List.filter_filter]
    apply List.filter_congr
    intro x hx
    cases hq2 : q₂ x with
    | true => rw [himp x hx hq2, Bool.true_and]
    | false => rw [Bool.false_and]
  have hsub : ((l.filter q₁).filter q₂).Sublist (l.filter q₁) := List.filter_sublist _
  have hle : ((l.filter q₁).filter q₂).length ≤ (l.filter q₁).length := hsub.length_le
  have hne : ((l.filter q₁).filter q₂).length ≠ (l.filter q₁).length := by
    intro hlen
    have hfull : (l.filter q₁).filter q₂ = l.filter q₁ := hsub.eq_of_length hlen
    have hmem : a ∈ l.filter q₁ := List.mem_filter.mpr ⟨ha, ha₁⟩
    rw [← hfull] at hmem
    have := (List.mem_filter.mp hmem).2
    rw [ha₂] at this
    cases this
  rw [heq]
  exact Nat.lt_of_le_of_ne hle hne

/-- The number of stored participant ids not yet visited; the measure
that shrinks at every productive step of the cycle walk. -/
def freshCount (participants : List Participant) (visited : List String) : Nat :=
  (((participants.map fun p => p.id).dedup).filter fun s => decide (s ∉ visited)).length

theorem freshCount_lt (participants : List Participant) (visited : List String)
    (c : Participant) (hc : c ∈ participants) (hnv : c.id ∉ visited) :
    freshCount participants (c.id :: visited) < freshCount participants visited := by
  apply length_filter_lt
  · intro s _ hq2
    simp only [decide_eq_true_eq] at hq2 ⊢
    intro hmem
    exact hq2 (List.mem_cons_of_mem _ hmem)
  · exact List.mem_dedup.mpr (List.mem_map.mpr ⟨c, hc, rfl⟩)
  · simp [hnv]
  · simp

theorem freshCount_le (participants : List Participant) (visited : List String) :
    freshCount participants visited ≤ participants.length := by
  calc freshCount participants visited
      ≤ ((participants.map fun p => p.id).dedup).length := (List.filter_sublist _).length_le
    _ ≤ (participants.map fun p => p.id).length := (List.dedup_sublist _).length_le
    _ = participants.length := List.length_map _ _

theorem walk_visited_mono (participants : List Participant) :
    ∀ (fuel : Nat) (cur : Option Participant) (visited : List String) (chain : List Link)
      (s : String), s ∈ visited → s ∈ (walk participants fuel cur visited chain).1 := by
  intro fuel
  induction fuel with
  | zero => intro cur v ch s hs; exact hs
  | succ n ih =>
    intro cur v ch s hs
    cases cur with
    | none => exact hs
    | some c =>
      simp only [walk]
      by_cases hv : c.id ∈ v
      · rw [if_pos hv]; exact hs
      · rw [if_neg hv]
        cases hlook : participantMapGet participants c.drawn with
        | none => exact List.mem_cons_of_mem _ hs
        | some q => exact ih (some q) (c.id :: v) _ s (List.mem_cons_of_mem _ hs)

theorem walk_marks (participants : List Participant) (n : Nat) (c : Participant)
    (visited : List String) (chain : List Link) (hnv : c.id ∉ visited) :
    c.id ∈ (walk participants (n+1) (some c) visited chain).1 := by
  simp only [walk]
  rw [if_neg hnv]
  cases hlook : participantMapGet participants c.drawn with
  | none => exact List.mem_cons_self _ _
  | some q =>
    exact walk_visited_mono participants n (some q) (c.id :: visited) _ c.id
      (List.mem_cons_self _ _)

theorem walk_fuel_irrelevant (participants : List Participant) :
    ∀ (f₁ f₂ : Nat) (cur : Option Participant) (visited : List String) (chain : List Link),
      (∀ c, cur = some c → c ∈ participants) →
      freshCount participants visited < f₁ →
      freshCount participants visited < f₂ →
      walk participants f₁ cur visited chain = walk participants f₂ cur visited chain := by
  intro f₁
  induction f₁ with
  | zero => intro f₂ cur v ch _ h1 _; exact absurd h1 (Nat.not_lt_zero _)
  | succ a ih =>
    intro f₂ cur v ch hcur h1 h2
    cases f₂ with
    | zero => exact absurd h2 (Nat.not_lt_zero _)
    | succ b =>
      cases cur with
      | none => rfl
      | some c =>
        simp only [walk]
        by_cases hv : c.id ∈ v
        · rw [if_pos hv, if_pos hv]
        · rw [if_neg hv, if_neg hv]
          cases hlook : participantMapGet participants c.drawn with
          | none => rfl
          | some q =>
            have hdec := freshCount_lt participants v c (hcur c rfl) hv
            exact ih b (some q) (c.id :: v) _
              (fun d hd => by
                cases hd
                exact (participantMapGet_mem participants c.drawn q hlook).1)
              (Nat.lt_of_lt_of_le hdec (Nat.lt_succ_iff.mp h1))
              (Nat.lt_of_lt_of_le hdec (Nat.lt_succ_iff.mp h2))

theorem remainingLoop_fuel_irrelevant (participants valid : List Participant) :
    ∀ (f₁ f₂ : Nat) (visited : List String) (chain : List Link),
      (valid.filter fun p => decide (p.id ∉ visited)).length < f₁ →
      (valid.filter fun p => decide (p.id ∉ visited)).length < f₂ →
      remainingLoop participants valid f₁ visited chain
        = remainingLoop participants valid f₂ visited chain := by
  intro f₁
  induction f₁ with
  | zero => intro f₂ v ch h1 _; exact absurd h1 (Nat.not_lt_zero _)
  | succ a ih =>
    intro f₂ v ch h1 h2
    cases f₂ with
    | zero => exact absurd h2 (Nat.not_lt_zero _)
    | succ b =>
      simp only [remainingLoop]
      cases hf : valid.filter (fun p => decide (p.id ∉ v)) with
      | nil => rfl
      | cons nextStart rest =>
        have hns : nextStart ∈ valid.filter (fun p => decide (p.id ∉ v)) := by
          rw [hf]; exact List.mem_cons_self _ _
        have hnsv : nextStart ∈ valid := (List.mem_filter.mp hns).1
        have hnsq : nextStart.id ∉ v := by
          have := (List.mem_filter.mp hns).2
          simpa using this
        have hmarked : nextStart.id ∈
            (walk participants (participants.length + 1) (some nextStart) v ch).1 :=
          walk_marks participants participants.length nextStart v ch hnsq
        have hdec : (valid.filter fun p => decide (p.id ∉
            (walk participants (participants.length + 1) (some nextStart) v ch).1)).length
            < (valid.filter fun p => decide (p.id ∉ v)).length := by
          apply length_filter_lt
          · intro x _ hq2
            simp only [decide_eq_true_eq] at hq2 ⊢
            intro hmem
            exact hq2 (walk_visited_mono participants _ _ _ _ _ hmem)
          · exact hnsv
          · simp [hnsq]
          · simp [hmarked]
        exact ih b _ _
          (Nat.lt_of_lt_of_le hdec (Nat.lt_succ_iff.mp h1))
          (Nat.lt_of_lt_of_le hdec (Nat.lt_succ_iff.mp h2))

/-- C8: `getOrderedChain` terminates on every input, consistent or not.
Formally, the fuel-indexed loops are stable: any fuel of at least
`participants.length + 1` (for the cycle walk; every productive
iteration visits a distinct stored id, and the current participant is
always a stored record) and at least `validParticipants.length + 1`
(for the leftover loop; every pass visits its starting participant)
gives the same result as the bound used in `getOrderedChain`, so the
loops complete within the bound on every input. -/
theorem getOrderedChain_terminates (participants : List Participant) (f g : Nat)
    (hf : participants.length + 1 ≤ f)
    (hg : (validParticipantsOf participants).length + 1 ≤ g)
    (cur : Option Participant) (hcur : ∀ c, cur = some c → c ∈ participants)
    (visited : List String) (chain : List Link) :
    walk participants f cur visited chain
      = walk participants (participants.length + 1) cur visited chain ∧
    remainingLoop participants (validParticipantsOf participants) g visited chain
      = remainingLoop participants (validParticipantsOf participants)
          ((validParticipantsOf participants).length + 1) visited chain := by
  have hfc : freshCount participants visited < participants.length + 1 :=
    Nat.lt_succ_of_le (freshCount_le participants visited)
  have hvc : ((validParticipantsOf participants).filter
      fun p => decide (p.id ∉ visited)).length
      < (validParticipantsOf participants).length + 1 :=
    Nat.lt_succ_of_le (List.filter_sublist _).length_le
  constructor
  · exact walk_fuel_irrelevant participants f (participants.length + 1) cur visited chain
      hcur (Nat.lt_of_lt_of_le hfc hf) hfc
  · exact remainingLoop_fuel_irrelevant participants (validParticipantsOf participants) g
      ((validParticipantsOf participants).length + 1) visited chain
      (Nat.lt_of_lt_of_le hvc hg) hvc

/-- Witness for C8 at a concrete input: on the two-cycle store of four
participants, doubling the fuel of either loop leaves the outputs
unchanged. -/
theorem getOrderedChain_terminates_witness :
    walk [⟨"A", "A", some "B"⟩, ⟨"B", "B", some "A"⟩] 10
        (some ⟨"A", "A", some "B"⟩) [] []
      = walk [⟨"A", "A", some "B"⟩, ⟨"B", "B", some "A"⟩] 3
        (some ⟨"A", "A", some "B"⟩) [] [] ∧
    remainingLoop [⟨"A", "A", some "B"⟩, ⟨"B", "B", some "A"⟩]
        (validParticipantsOf [⟨"A", "A", some "B"⟩, ⟨"B", "B", some "A"⟩]) 7 [] []
      = remainingLoop [⟨"A", "A", some "B"⟩, ⟨"B", "B", some "A"⟩]
        (validParticipantsOf [⟨"A", "A", some "B"⟩, ⟨"B", "B", some "A"⟩])
        ((validParticipantsOf [⟨"A", "A", some "B"⟩, ⟨"B", "B", some "A"⟩]).length + 1)
        [] [] :=
  getOrderedChain_terminates [⟨"A", "A", some "B"⟩, ⟨"B", "B", some "A"⟩] 10 7
    (by decide) (by decide) (some ⟨"A", "A", some "B"⟩)
    (by intro c hc; cases hc; decide) [] []

/- ### Cycle decomposition of a valid mapping (C2) -/

/-- The links generated by one closed cycle `[p0, ..., p_(k-1)]`: link
`i` joins participant `i` to participant `i+1`, indices mod `k`, in the
exact shape the walk produces them. -/
def cycleLinks : List Participant → List Link
  | [] => []
  | p :: rest =>
    ((p :: rest).zip (rest ++ [p])).map fun pq => Link.mk pq.1.name pq.2.name pq.2.id

/-- `c` is a closed cycle of the stored mapping: nonempty, all its
participants stored, each one drawing the next and the last drawing
the first again. -/
def IsCycleOf (ps : List Participant) : List Participant → Prop
  | [] => False
  | p :: rest => (∀ q ∈ p :: rest, q ∈ ps) ∧
      List.Chain' (fun a b => a.drawn = some b.id) ((p :: rest) ++ [p])

/-- The successor of a participant under the stored mapping: the record
its `drawn_participant_id` resolves to (or itself, a fallback never
taken on a total mapping). -/
def nextOf (ps : List Participant) (p : Participant) : Participant :=
  (participantMapGet ps p.drawn).getD p

/-- The visited set never separates a participant from its successor:
the unvisited region is closed under the stored mapping. -/
def UnvisitedClosed (ps : List Participant) (visited : List String) : Prop :=
  ∀ p ∈ ps, p.id ∉ visited → (nextOf ps p).id ∉ visited

/-- The forward orbit `p0, next p0, next (next p0), ...` of length `m`. -/
def orbitOf (ps : List Participant) (p0 : Participant) (m : Nat) : List Participant :=
  (List.range m).map fun k => (nextOf ps)^[k] p0

theorem find?_id_of_nodup :
    ∀ (l : List Participant), ((l.map fun p => p.id)).Nodup →
      ∀ p ∈ l, l.find? (fun q => q.id == p.id) = some p := by
  intro l
  induction l with
  | nil => intro _ p hp; cases hp
  | cons x xs ih =>
    intro hnd p hp
    simp only [List.map_cons, List.nodup_cons] at hnd
    rcases List.mem_cons.mp hp with rfl | hxs
    · rw [List.find?_cons_of_pos _ (by simp)]
    · rw [List.find?_cons_of_neg]
      · exact ih hnd.2 p hxs
      · simp only [beq_iff_eq]
        intro hxp
        exact hnd.1 (hxp ▸ List.mem_map.mpr ⟨p, hxs, rfl⟩)

theorem participantMapGet_self (ps : List Participant)
    (hnd : (ps.map fun p => p.id).Nodup) (p : Participant) (hp : p ∈ ps) :
    participantMapGet ps (some p.id) = some p := by
  simp only [participantMapGet]
  apply find?_id_of_nodup
  · rw [List.map_reverse]
    exact List.nodup_reverse.mpr hnd
  · exact List.mem_reverse.mpr hp

theorem nextOf_spec (ps : List Participant)
    (hnd : (ps.map fun p => p.id).Nodup)
    (htotal : ∀ p ∈ ps, ∃ q, q ∈ ps ∧ p.drawn = some q.id)
    (p : Participant) (hp : p ∈ ps) :
    nextOf ps p ∈ ps ∧ p.drawn = some (nextOf ps p).id ∧
    participantMapGet ps p.drawn = some (nextOf ps p) := by
  rcases htotal p hp with ⟨q, hq, hdq⟩
  have hlook : participantMapGet ps p.drawn = some q := by
    rw [hdq]
    exact participantMapGet_self ps hnd q hq
  have heq : nextOf ps p = q := by rw [nextOf, hlook]; rfl
  rw [heq]
  exact ⟨hq, hdq, hlook⟩

theorem nextOf_inj (ps : List Participant)
    (hnd : (ps.map fun p => p.id).Nodup)
    (htotal : ∀ p ∈ ps, ∃ q, q ∈ ps ∧ p.drawn = some q.id)
    (hinj : ∀ p ∈ ps, ∀ q ∈ ps, p.drawn = q.drawn → p = q)
    (p : Participant) (hp : p ∈ ps) (q : Participant) (hq : q ∈ ps)
    (h : nextOf ps p = nextOf ps q) : p = q := by
  apply hinj p hp q hq
  rw [(nextOf_spec ps hnd htotal p hp).2.1, (nextOf_spec ps hnd htotal q hq).2.1, h]

theorem iterate_nextOf_mem (ps : List Participant)
    (hnd : (ps.map fun p => p.id).Nodup)
    (htotal : ∀ p ∈ ps, ∃ q, q ∈ ps ∧ p.drawn = some q.id)
    (p0 : Participant) (hp0 : p0 ∈ ps) :
    ∀ k, (nextOf ps)^[k] p0 ∈ ps := by
  intro k
  induction k with
  | zero => simpa using hp0
  | succ n ihk =>
    rw [Function.iterate_succ_apply']
    exact (nextOf_spec ps hnd htotal _ ihk).1

theorem iterate_nextOf_cancel (ps : List Participant)
    (hnd : (ps.map fun p => p.id).Nodup)
    (htotal : ∀ p ∈ ps, ∃ q, q ∈ ps ∧ p.drawn = some q.id)
    (hinj : ∀ p ∈ ps, ∀ q ∈ ps, p.drawn = q.drawn → p = q) :
    ∀ (i : Nat) (a b : Participant), a ∈ ps → b ∈ ps →
      (nextOf ps)^[i] a = (nextOf ps)^[i] b → a = b := by
  intro i
  induction i with
  | zero => intro a b _ _ h; simpa using h
  | succ n ihc =>
    intro a b ha hb h
    rw [Function.iterate_succ_apply, Function.iterate_succ_apply] at h
    have hna := (nextOf_spec ps hnd htotal a ha).1
    have hnb := (nextOf_spec ps hnd htotal b hb).1
    exact nextOf_inj ps hnd htotal hinj a ha b hb (ihc _ _ hna hnb h)

theorem nextOf_period (ps : List Participant)
    (hnd : (ps.map fun p => p.id).Nodup)
    (htotal : ∀ p ∈ ps, ∃ q, q ∈ ps ∧ p.drawn = some q.id)
    (hinj : ∀ p ∈ ps, ∀ q ∈ ps, p.drawn = q.drawn → p = q)
    (p0 : Participant) (hp0 : p0 ∈ ps) :
    ∃ m, 0 < m ∧ m ≤ ps.length ∧ (nextOf ps)^[m] p0 = p0 := by
  have key : ∀ i j, i < j → j < ps.length + 1 →
      (nextOf ps)^[i] p0 = (nextOf ps)^[j] p0 →
      ∃ m, 0 < m ∧ m ≤ ps.length ∧ (nextOf ps)^[m] p0 = p0 := by
    intro i j hij hj h
    refine ⟨j - i, by omega, by omega, ?_⟩
    have hadd : (nextOf ps)^[j] p0 = (nextOf ps)^[i] ((nextOf ps)^[j-i] p0) := by
      rw [← Function.iterate_add_apply]
      congr 1
      omega
    rw [hadd] at h
    exact (iterate_nextOf_cancel ps hnd htotal hinj i _ _
      (iterate_nextOf_mem ps hnd htotal p0 hp0 (j-i)) hp0 h.symm)
  have hmaps : ∀ a ∈ Finset.range (ps.length + 1),
      (nextOf ps)^[a] p0 ∈ ps.toFinset := by
    intro a _
    exact List.mem_toFinset.mpr (iterate_nextOf_mem ps hnd htotal p0 hp0 a)
  have hcard : ps.toFinset.card < (Finset.range (ps.length + 1)).card := by
    rw [Finset.card_range]
    exact Nat.lt_succ_of_le (List.toFinset_card_le ps)
  rcases Finset.exists_ne_map_eq_of_card_lt_of_maps_to hcard hmaps with
    ⟨i, hi, j, hj, hne, heq⟩
  rcases Nat.lt_or_ge i j with hij | hij
  · exact key i j hij (Finset.mem_range.mp hj) heq
  · have hji : j < i := by omega
    exact key j i hji (Finset.mem_range.mp hi) heq.symm

theorem nextOf_min_period (ps : List Participant)
    (hnd : (ps.map fun p => p.id).Nodup)
    (htotal : ∀ p ∈ ps, ∃ q, q ∈ ps ∧ p.drawn = some q.id)
    (hinj : ∀ p ∈ ps, ∀ q ∈ ps, p.drawn = q.drawn → p = q)
    (p0 : Participant) (hp0 : p0 ∈ ps) :
    ∃ m, 0 < m ∧ m ≤ ps.length ∧ (nextOf ps)^[m] p0 = p0 ∧
      ∀ k, 0 < k → k < m → (nextOf ps)^[k] p0 ≠ p0 := by
  rcases nextOf_period ps hnd htotal hinj p0 hp0 with ⟨m₁, hm₁0, hm₁l, hm₁p⟩
  have hex : ∃ m, 0 < m ∧ (nextOf ps)^[m] p0 = p0 := ⟨m₁, hm₁0, hm₁p⟩
  refine ⟨Nat.find hex, (Nat.find_spec hex).1, ?_, (Nat.find_spec hex).2, ?_⟩
  · exact le_trans (Nat.find_min' hex ⟨hm₁0, hm₁p⟩) hm₁l
  · intro k hk0 hkm heq
    exact Nat.find_min hex hkm ⟨hk0, heq⟩

theorem orbit_facts (ps : List Participant)
    (hnd : (ps.map fun p => p.id).Nodup)
    (htotal : ∀ p ∈ ps, ∃ q, q ∈ ps ∧ p.drawn = some q.id)
    (hinj : ∀ p ∈ ps, ∀ q ∈ ps, p.drawn = q.drawn → p = q)
    (p0 : Participant) (hp0 : p0 ∈ ps) (m : Nat) (hm0 : 0 < m)
    (hmp : (nextOf ps)^[m] p0 = p0)
    (hmin : ∀ k, 0 < k → k < m → (nextOf ps)^[k] p0 ≠ p0) :
    (orbitOf ps p0 m).length = m ∧
    (∀ q ∈ orbitOf ps p0 m, q ∈ ps) ∧
    ((orbitOf ps p0 m).map fun p => p.id).Nodup ∧
    List.Chain' (fun a b => a.drawn = some b.id) (orbitOf ps p0 m ++ [p0]) ∧
    (orbitOf ps p0 m).head? = some p0 := by
  have hitmem : ∀ k, (nextOf ps)^[k] p0 ∈ ps := iterate_nextOf_mem ps hnd htotal p0 hp0
  have hinjit : ∀ i ∈ List.range m, ∀ j ∈ List.range m,
      (nextOf ps)^[i] p0 = (nextOf ps)^[j] p0 → i = j := by
    have key : ∀ i j, i < j → j < m → (nextOf ps)^[i] p0 ≠ (nextOf ps)^[j] p0 := by
      intro i j hij hj h
      have hadd : (nextOf ps)^[j] p0 = (nextOf ps)^[i] ((nextOf ps)^[j-i] p0) := by
        rw [← Function.iterate_add_apply]
        congr 1
        omega
      rw [hadd] at h
      have := iterate_nextOf_cancel ps hnd htotal hinj i _ _ hp0 (hitmem (j-i)) h
      exact hmin (j-i) (by omega) (by omega) this.symm
    intro i hi j hj h
    rcases Nat.lt_trichotomy i j with hlt | heq | hgt
    · exact absurd h (key i j hlt (List.mem_range.mp hj))
    · exact heq
    · exact absurd h.symm (key j i hgt (List.mem_range.mp hi))
  have hnd_orbit : (orbitOf ps p0 m).Nodup :=
    List.Nodup.map_on hinjit (List.nodup_range m)
  refine ⟨by simp [orbitOf], ?_, ?_, ?_, ?_⟩
  · intro q hq
    rcases List.mem_map.mp hq with ⟨k, _, rfl⟩
    exact hitmem k
  · apply List.Nodup.map_on _ hnd_orbit
    intro x hx y hy hxy
    rcases List.mem_map.mp hx with ⟨i, _, rfl⟩
    rcases List.mem_map.mp hy with ⟨j, _, rfl⟩
    exact List.inj_on_of_nodup_map hnd (hitmem i) (hitmem j) hxy
  · have hrw : orbitOf ps p0 m ++ [p0]
        = (List.range (m+1)).map fun k => (nextOf ps)^[k] p0 := by
      rw [List.range_succ, List.map_append]
      simp [orbitOf, hmp]
    rw [hrw, List.chain'_map]
    rw [show m + 1 = Nat.succ m from rfl, List.chain'_range_succ]
    intro k _
    rw [show Nat.succ k = k + 1 from rfl, Function.iterate_succ_apply']
    exact (nextOf_spec ps hnd htotal _ (hitmem k)).2.1
  · cases m with
    | zero => omega
    | succ m₂ =>
      rw [orbitOf, List.range_succ_eq_map]
      simp

theorem walk_stop (ps : List Participant) (fuel : Nat) (c : Participant)
    (visited : List String) (chain : List Link) (h : c.id ∈ visited) :
    walk ps fuel (some c) visited chain = (visited, chain) := by
  cases fuel with
  | zero => rfl
  | succ n =>
    simp only [walk]
    rw [if_pos h]

theorem zip_rotate_cons (p stop : Participant) (rest : List Participant) :
    (p :: rest).zip (rest ++ [stop])
      = (p, rest.headD stop) :: rest.zip (rest.drop 1 ++ [stop]) := by
  cases rest with
  | nil => rfl
  | cons q r₂ => rfl

theorem walk_path (ps : List Participant) (stop : Participant)
    (hstoplook : participantMapGet ps (some stop.id) = some stop) :
    ∀ (c : List Participant) (visited : List String) (chain : List Link) (fuel : Nat),
      stop.id ∈ visited →
      (∀ q ∈ c, participantMapGet ps (some q.id) = some q) →
      (∀ q ∈ c, q.id ∉ visited) →
      ((c.map fun p => p.id)).Nodup →
      List.Chain' (fun a b => a.drawn = some b.id) (c ++ [stop]) →
      c.length + 1 ≤ fuel →
      walk ps fuel (some (c.headD stop)) visited chain
        = ((c.map fun p => p.id).reverse ++ visited,
           chain ++ (c.zip (c.drop 1 ++ [stop])).map fun pq =>
             Link.mk pq.1.name pq.2.name pq.2.id) := by
  intro c
  induction c with
  | nil =>
    intro visited chain fuel hsv _ _ _ _ _
    simpa using walk_stop ps fuel stop visited chain hsv
  | cons p rest ih =>
    intro visited chain fuel hsv hlooks hunv hnodup hchain hfuel
    cases fuel with
    | zero => omega
    | succ fl =>
      simp only [List.map_cons, List.nodup_cons] at hnodup
      have hpv : p.id ∉ visited := hunv p (List.mem_cons_self _ _)
      have hchain₂ : List.Chain' (fun a b => a.drawn = some b.id)
          (p :: (rest ++ [stop])) := by simpa using hchain
      have hnxt : p.drawn = some ((rest.headD stop)).id := by
        cases rest with
        | nil => exact (List.chain'_cons.mp hchain₂).1
        | cons q r₂ => exact (List.chain'_cons.mp hchain₂).1
      have hlooknxt : participantMapGet ps (some ((rest.headD stop)).id)
          = some (rest.headD stop) := by
        cases rest with
        | nil => exact hstoplook
        | cons q r₂ => exact hlooks q (List.mem_cons_of_mem _ (List.mem_cons_self _ _))
      have hmain := ih (p.id :: visited)
        (chain ++ [Link.mk p.name (rest.headD stop).name (rest.headD stop).id]) fl
        (List.mem_cons_of_mem _ hsv)
        (fun q hq => hlooks q (List.mem_cons_of_mem _ hq))
        (fun q hq hmem => by
          rcases List.mem_cons.mp hmem with heq | hmem₂
          · exact hnodup.1 (heq ▸ List.mem_map.mpr ⟨q, hq, rfl⟩)
          · exact hunv q (List.mem_cons_of_mem _ hq) hmem₂)
        hnodup.2
        (hchain₂.tail)
        (by simp at hfuel; omega)
      show walk ps (fl+1) (some p) visited chain = _
      simp only [walk]
      rw [if_neg hpv, hnxt, hlooknxt]
      refine hmain.trans ?_
      have hd : List.drop 1 (p :: rest) = rest := rfl
      rw [hd, zip_rotate_cons p stop rest]
      simp [List.append_assoc]

theorem walk_orbit (ps : List Participant)
    (hnd : (ps.map fun p => p.id).Nodup)
    (htotal : ∀ p ∈ ps, ∃ q, q ∈ ps ∧ p.drawn = some q.id)
    (hinj : ∀ p ∈ ps, ∀ q ∈ ps, p.drawn = q.drawn → p = q)
    (hnofix : ∀ p ∈ ps, p.drawn ≠ some p.id)
    (p0 : Participant) (hp0 : p0 ∈ ps)
    (visited : List String) (chain : List Link)
    (hclosed : UnvisitedClosed ps visited)
    (hp0v : p0.id ∉ visited) :
    ∃ c : List Participant,
      walk ps (ps.length + 1) (some p0) visited chain
        = ((c.map fun p => p.id).reverse ++ visited, chain ++ cycleLinks c) ∧
      c.head? = some p0 ∧ 2 ≤ c.length ∧ IsCycleOf ps c ∧
      ((c.map fun p => p.id)).Nodup ∧ (∀ q ∈ c, q.id ∉ visited) ∧
      (∀ q ∈ c, ∃ q₂ ∈ c, nextOf ps q₂ = q) := by
  rcases nextOf_min_period ps hnd htotal hinj p0 hp0 with ⟨m, hm0, hml, hmp, hmin⟩
  have hm2 : 2 ≤ m := by
    rcases Nat.lt_or_ge m 2 with hlt | hge
    · exfalso
      have hm1 : m = 1 := by omega
      rw [hm1] at hmp
      rw [Function.iterate_one] at hmp
      have hspec := nextOf_spec ps hnd htotal p0 hp0
      rw [hmp] at hspec
      exact hnofix p0 hp0 hspec.2.1
    · exact hge
  obtain ⟨hlen, hmem, hidnd, hchain, hhead⟩ :=
    orbit_facts ps hnd htotal hinj p0 hp0 m hm0 hmp hmin
  have hunvisited : ∀ k, ((nextOf ps)^[k] p0).id ∉ visited := by
    intro k
    induction k with
    | zero => simpa using hp0v
    | succ n ihk =>
      rw [Function.iterate_succ_apply']
      exact hclosed _ (iterate_nextOf_mem ps hnd htotal p0 hp0 n) ihk
  have hunv : ∀ q ∈ orbitOf ps p0 m, q.id ∉ visited := by
    intro q hq
    rcases List.mem_map.mp hq with ⟨k, _, rfl⟩
    exact hunvisited k
  obtain ⟨m₂, rfl⟩ : ∃ m₂, m = m₂ + 1 := ⟨m - 1, by omega⟩
  have hsurj : ∀ q ∈ orbitOf ps p0 (m₂+1),
      ∃ q₂ ∈ orbitOf ps p0 (m₂+1), nextOf ps q₂ = q := by
    intro q hq
    rcases List.mem_map.mp hq with ⟨k, hkmem, rfl⟩
    cases k with
    | zero =>
      refine ⟨(nextOf ps)^[m₂] p0,
        List.mem_map.mpr ⟨m₂, List.mem_range.mpr (by omega), rfl⟩, ?_⟩
      rw [← Function.iterate_succ_apply' (nextOf ps) m₂ p0, hmp]
      simp
    | succ k₂ =>
      have hk : k₂ + 1 < m₂ + 1 := List.mem_range.mp hkmem
      refine ⟨(nextOf ps)^[k₂] p0,
        List.mem_map.mpr ⟨k₂, List.mem_range.mpr (by omega), rfl⟩, ?_⟩
      exact (Function.iterate_succ_apply' (nextOf ps) k₂ p0).symm
  have hc : orbitOf ps p0 (m₂+1)
      = p0 :: (List.range m₂).map fun k => (nextOf ps)^[k+1] p0 := by
    rw [orbitOf, List.range_succ_eq_map, List.map_cons, List.map_map]
    rfl
  set tail := (List.range m₂).map fun k => (nextOf ps)^[k+1] p0 with htail
  rw [hc] at hlen hmem hidnd hchain hhead hunv hsurj
  have hm₂1 : 1 ≤ m₂ := by omega
  have htail_head : tail.headD p0 = nextOf ps p0 := by
    obtain ⟨m₃, rfl⟩ : ∃ m₃, m₂ = m₃ + 1 := ⟨m₂ - 1, by omega⟩
    rw [htail, List.range_succ_eq_map]
    rfl
  have hspec := nextOf_spec ps hnd htotal p0 hp0
  have hidnd₂ := hidnd
  simp only [List.map_cons, List.nodup_cons] at hidnd₂
  have hpath := walk_path ps p0 (participantMapGet_self ps hnd p0 hp0)
    tail (p0.id :: visited)
    (chain ++ [Link.mk p0.name (nextOf ps p0).name (nextOf ps p0).id])
    ps.length
    (List.mem_cons_self _ _)
    (fun q hq => by
      rcases List.mem_map.mp hq with ⟨k, _, rfl⟩
      exact participantMapGet_self ps hnd _ (iterate_nextOf_mem ps hnd htotal p0 hp0 (k+1)))
    (fun q hq hmemv => by
      rcases List.mem_cons.mp hmemv with heq | hmem₂
      · exact hidnd₂.1 (heq ▸ List.mem_map.mpr ⟨q, hq, rfl⟩)
      · exact hunv q (List.mem_cons_of_mem _ hq) hmem₂)
    hidnd₂.2
    (by
      have := hchain
      simp only [List.cons_append] at this
      exact this.tail)
    (by
      have hlt : tail.length = m₂ := by simp [htail]
      omega)
  rw [htail_head] at hpath
  refine ⟨p0 :: tail, ?_, hhead, by rw [hlen]; exact hm2, ⟨hmem, hchain⟩, hidnd, hunv, hsurj⟩
  show walk ps (ps.length + 1) (some p0) visited chain = _
  simp only [walk]
  rw [if_neg hp0v, hspec.2.2]
  refine hpath.trans ?_
  rw [show cycleLinks (p0 :: tail)
      = ((p0 :: tail).zip (tail ++ [p0])).map
          (fun pq => Link.mk pq.1.name pq.2.name pq.2.id) from rfl]
  rw [zip_rotate_cons p0 p0 tail, htail_head]
  simp [List.append_assoc]

theorem isCycleOf_mem (ps : List Participant) (c : List Participant)
    (h : IsCycleOf ps c) : ∀ q ∈ c, q ∈ ps := by
  cases c with
  | nil => exact h.elim
  | cons x r => exact h.1

theorem unvisitedClosed_extend (ps : List Participant)
    (hnd : (ps.map fun p => p.id).Nodup)
    (htotal : ∀ p ∈ ps, ∃ q, q ∈ ps ∧ p.drawn = some q.id)
    (hinj : ∀ p ∈ ps, ∀ q ∈ ps, p.drawn = q.drawn → p = q)
    (c : List Participant) (visited : List String)
    (hclosed : UnvisitedClosed ps visited)
    (hmemc : ∀ q ∈ c, q ∈ ps)
    (hsurj : ∀ q ∈ c, ∃ q₂ ∈ c, nextOf ps q₂ = q) :
    UnvisitedClosed ps ((c.map fun p => p.id).reverse ++ visited) := by
  intro p hp hpv
  simp only [List.mem_append, List.mem_reverse] at hpv ⊢
  push_neg at hpv
  rcases hpv with ⟨hpc, hpvis⟩
  intro hmem
  rcases hmem with hin_c | hin_v
  · rcases List.mem_map.mp hin_c with ⟨y, hyc, hyid⟩
    have hy_eq : y = nextOf ps p :=
      List.inj_on_of_nodup_map hnd (hmemc y hyc)
        (nextOf_spec ps hnd htotal p hp).1 hyid
    rcases hsurj y hyc with ⟨q₂, hq₂c, hq₂n⟩
    have hq₂p : q₂ = p :=
      nextOf_inj ps hnd htotal hinj q₂ (hmemc q₂ hq₂c) p hp (by rw [hq₂n, hy_eq])
    exact hpc (hq₂p ▸ List.mem_map.mpr ⟨q₂, hq₂c, rfl⟩)
  · exact hclosed p hp hpvis hin_v

theorem filter_split_perm (ps : List Participant)
    (hnd : (ps.map fun p => p.id).Nodup)
    (c : List Participant) (visited : List String)
    (hmemc : ∀ q ∈ c, q ∈ ps)
    (hcnd : (c.map fun p => p.id).Nodup)
    (hunv : ∀ q ∈ c, q.id ∉ visited) :
    List.Perm
      (c ++ ps.filter fun p => decide (p.id ∉ (c.map fun p => p.id).reverse ++ visited))
      (ps.filter fun p => decide (p.id ∉ visited)) := by
  have hpsnd : ps.Nodup := List.Nodup.of_map _ hnd
  have hcndp : c.Nodup := List.Nodup.of_map _ hcnd
  have hfnd : (ps.filter fun p => decide (p.id ∉ visited)).Nodup :=
    (List.filter_sublist ps).nodup hpsnd
  have hfnd₂ : (ps.filter fun p =>
      decide (p.id ∉ (c.map fun p => p.id).reverse ++ visited)).Nodup :=
    (List.filter_sublist ps).nodup hpsnd
  have hdisj : c.Disjoint (ps.filter fun p =>
      decide (p.id ∉ (c.map fun p => p.id).reverse ++ visited)) := by
    rw [List.disjoint_left]
    intro x hxc hxf
    have hx := (List.mem_filter.mp hxf).2
    simp only [decide_eq_true_eq, List.mem_append, List.mem_reverse] at hx
    push_neg at hx
    exact hx.1 (List.mem_map.mpr ⟨x, hxc, rfl⟩)
  have hlnd : (c ++ ps.filter fun p =>
      decide (p.id ∉ (c.map fun p => p.id).reverse ++ visited)).Nodup :=
    List.Nodup.append hcndp hfnd₂ hdisj
  apply List.Subperm.antisymm
  · apply List.subperm_of_subset hlnd
    intro x hx
    rcases List.mem_append.mp hx with hxc | hxf
    · refine List.mem_filter.mpr ⟨hmemc x hxc, ?_⟩
      simp [hunv x hxc]
    · rcases List.mem_filter.mp hxf with ⟨hxps, hxcond⟩
      simp only [decide_eq_true_eq, List.mem_append, List.mem_reverse] at hxcond
      push_neg at hxcond
      refine List.mem_filter.mpr ⟨hxps, ?_⟩
      simp [hxcond.2]
  · apply List.subperm_of_subset hfnd
    intro x hx
    rcases List.mem_filter.mp hx with ⟨hxps, hxcond⟩
    simp only [decide_eq_true_eq] at hxcond
    by_cases hxc : x.id ∈ c.map fun p => p.id
    · rcases List.mem_map.mp hxc with ⟨y, hyc, hyid⟩
      have hyx : y = x := List.inj_on_of_nodup_map hnd (hmemc y hyc) hxps hyid
      exact List.mem_append_left _ (hyx ▸ hyc)
    · apply List.mem_append_right
      refine List.mem_filter.mpr ⟨hxps, ?_⟩
      simp only [decide_eq_true_eq, List.mem_append, List.mem_reverse]
      push_neg
      exact ⟨hxc, hxcond⟩

theorem remainingLoop_cycles (ps : List Participant)
    (hnd : (ps.map fun p => p.id).Nodup)
    (htotal : ∀ p ∈ ps, ∃ q, q ∈ ps ∧ p.drawn = some q.id)
    (hinj : ∀ p ∈ ps, ∀ q ∈ ps, p.drawn = q.drawn → p = q)
    (hnofix : ∀ p ∈ ps, p.drawn ≠ some p.id) :
    ∀ (n fuel : Nat) (visited : List String) (chain : List Link),
      (ps.filter fun p => decide (p.id ∉ visited)).length ≤ n →
      n < fuel →
      UnvisitedClosed ps visited →
      ∃ cycles : List (List Participant),
        remainingLoop ps ps fuel visited chain
          = chain ++ (cycles.map cycleLinks).flatten ∧
        List.Perm cycles.flatten (ps.filter fun p => decide (p.id ∉ visited)) ∧
        (∀ c ∈ cycles, 2 ≤ c.length ∧ IsCycleOf ps c) := by
  intro n
  induction n with
  | zero =>
    intro fuel visited chain hle hfuel _
    have hempty : ps.filter (fun p => decide (p.id ∉ visited)) = [] :=
      List.length_eq_zero.mp (Nat.le_zero.mp hle)
    cases fuel with
    | zero => omega
    | succ fl =>
      refine ⟨[], ?_, by rw [hempty]; exact List.Perm.refl _, by simp⟩
      simp only [remainingLoop, hempty]
      simp
  | succ n₂ ih =>
    intro fuel visited chain hle hfuel hclosed
    cases fuel with
    | zero => omega
    | succ fl =>
      simp only [remainingLoop]
      cases hf : ps.filter (fun p => decide (p.id ∉ visited)) with
      | nil => exact ⟨[], by simp, by simp, by simp⟩
      | cons nextStart rest =>
        have hns_mem_f : nextStart ∈ ps.filter (fun p => decide (p.id ∉ visited)) := by
          rw [hf]
          exact List.mem_cons_self _ _
        have hns_ps : nextStart ∈ ps := (List.mem_filter.mp hns_mem_f).1
        have hns_unv : nextStart.id ∉ visited := by
          have hb := (List.mem_filter.mp hns_mem_f).2
          simpa using hb
        rcases walk_orbit ps hnd htotal hinj hnofix nextStart hns_ps visited chain
            hclosed hns_unv
          with ⟨c, hweq, hchead, hclen, hccyc, hcnd, hcunv, hcsurj⟩
        have hmemc := isCycleOf_mem ps c hccyc
        have hnsc : nextStart ∈ c := List.mem_of_mem_head? hchead
        have hlt : (ps.filter fun p =>
            decide (p.id ∉ (c.map fun p => p.id).reverse ++ visited)).length
            < (ps.filter fun p => decide (p.id ∉ visited)).length := by
          apply length_filter_lt
          · intro x _ hq2
            simp only [decide_eq_true_eq] at hq2 ⊢
            intro hxv
            exact hq2 (List.mem_append_right _ hxv)
          · exact hns_ps
          · simp [hns_unv]
          · simp [List.mem_reverse, List.mem_map.mpr ⟨nextStart, hnsc, rfl⟩]
        have hdec : (ps.filter fun p =>
            decide (p.id ∉ (c.map fun p => p.id).reverse ++ visited)).length ≤ n₂ := by
          have hle₂ := hle
          omega
        rcases ih fl ((c.map fun p => p.id).reverse ++ visited) (chain ++ cycleLinks c)
            hdec (by omega)
            (unvisitedClosed_extend ps hnd htotal hinj c visited hclosed hmemc hcsurj)
          with ⟨cycles₂, heq₂, hperm₂, hcyc₂⟩
        have hsplit := filter_split_perm ps hnd c visited hmemc hcnd hcunv
        refine ⟨c :: cycles₂, ?_, ?_, ?_⟩
        · show remainingLoop ps ps fl
              (walk ps (ps.length + 1) (some nextStart) visited chain).1
              (walk ps (ps.length + 1) (some nextStart) visited chain).2
            = chain ++ ((c :: cycles₂).map cycleLinks).flatten
          rw [hweq]
          exact heq₂.trans (by simp [List.append_assoc])
        · rw [← hf]
          simp only [List.flatten_cons]
          exact (hperm₂.append_left c).trans hsplit
        · intro cc hcc
          rcases List.mem_cons.mp hcc with rfl | hmem₂
          · exact ⟨hclen, hccyc⟩
          · exact hcyc₂ cc hmem₂

theorem cycleLinks_length (c : List Participant) : (cycleLinks c).length = c.length := by
  cases c with
  | nil => rfl
  | cons p rest => simp [cycleLinks]

theorem cycleLinks_receiverIds (c : List Participant) :
    List.Perm ((cycleLinks c).map fun l => l.receiverId) (c.map fun p => p.id) := by
  cases c with
  | nil => exact List.Perm.refl _
  | cons p rest =>
    have h1 : ((cycleLinks (p :: rest)).map fun l => l.receiverId)
        = (rest ++ [p]).map fun q => q.id := by
      rw [cycleLinks, List.map_map]
      rw [show ((fun l : Link => l.receiverId) ∘ fun pq : Participant × Participant =>
          Link.mk pq.1.name pq.2.name pq.2.id)
          = (fun q : Participant => q.id) ∘ Prod.snd from rfl]
      rw [← List.map_map, List.map_snd_zip]
      simp
    rw [h1]
    exact (List.perm_append_singleton p rest).map _

theorem cycleLinks_givers (c : List Participant) :
    (cycleLinks c).map (fun l => l.giver) = c.map fun p => p.name := by
  cases c with
  | nil => rfl
  | cons p rest =>
    rw [cycleLinks, List.map_map]
    rw [show ((fun l : Link => l.giver) ∘ fun pq : Participant × Participant =>
        Link.mk pq.1.name pq.2.name pq.2.id)
        = (fun q : Participant => q.name) ∘ Prod.fst from rfl]
    rw [← List.map_map, List.map_fst_zip]
    simp

theorem flatten_cycleLinks_length (cycles : List (List Participant)) :
    ((cycles.map cycleLinks).flatten).length = cycles.flatten.length := by
  induction cycles with
  | nil => rfl
  | cons c cs ihf => simp [cycleLinks_length, ihf]

theorem flatten_cycleLinks_receiverIds (cycles : List (List Participant)) :
    List.Perm (((cycles.map cycleLinks).flatten).map fun l => l.receiverId)
      (cycles.flatten.map fun p => p.id) := by
  induction cycles with
  | nil => exact List.Perm.refl _
  | cons c cs ihf =>
    simp only [List.map_cons, List.flatten_cons, List.map_append]
    exact (cycleLinks_receiverIds c).append ihf

theorem flatten_cycleLinks_givers (cycles : List (List Participant)) :
    ((cycles.map cycleLinks).flatten).map (fun l => l.giver)
      = cycles.flatten.map fun p => p.name := by
  induction cycles with
  | nil => rfl
  | cons c cs ihf =>
    simp only [List.map_cons, List.flatten_cons, List.map_append]
    rw [cycleLinks_givers, ihf]

theorem validParticipantsOf_eq_self (ps : List Participant)
    (hadmin : ∀ p ∈ ps, p.id ≠ ADMIN_USERNAME)
    (hne : ∀ p ∈ ps, p.id ≠ "")
    (htotal : ∀ p ∈ ps, ∃ q, q ∈ ps ∧ p.drawn = some q.id) :
    validParticipantsOf ps = ps := by
  rw [validParticipantsOf, List.filter_eq_self]
  intro p hp
  rcases htotal p hp with ⟨q, hq, hdq⟩
  simp [hdq, truthyId, hadmin p hp, hne q hq]

/-- C2: on a valid assignment mapping — a store of participants with
distinct, non-admin, nonempty identifiers in which every participant
draws exactly one stored receiver (totality), no two participants draw
the same receiver (bijectivity), and nobody draws itself (no fixed
point) — the chain built by `getOrderedChain` (with the stored order as
the order hint) decomposes exactly into closed cycles of length at
least two; its link count equals the domain size, its receiver ids are
a permutation of the domain (each identifier receives exactly once),
its giver names are a permutation of the stored names (each participant
gives exactly once), and every link replays the stored mapping
(`LinkSound`): the chain reconstructs the mapping exactly. -/
theorem getOrderedChain_valid_mapping (ps : List Participant)
    (hnd : (ps.map fun p => p.id).Nodup)
    (hadmin : ∀ p ∈ ps, p.id ≠ ADMIN_USERNAME)
    (hne : ∀ p ∈ ps, p.id ≠ "")
    (htotal : ∀ p ∈ ps, ∃ q, q ∈ ps ∧ p.drawn = some q.id)
    (hinj : ∀ p ∈ ps, ∀ q ∈ ps, p.drawn = q.drawn → p = q)
    (hnofix : ∀ p ∈ ps, p.drawn ≠ some p.id) :
    ∃ cycles : List (List Participant),
      getOrderedChain ps = (cycles.map cycleLinks).flatten ∧
      List.Perm cycles.flatten ps ∧
      (∀ c ∈ cycles, 2 ≤ c.length ∧ IsCycleOf ps c) ∧
      (getOrderedChain ps).length = ps.length ∧
      List.Perm ((getOrderedChain ps).map fun l => l.receiverId) (ps.map fun p => p.id) ∧
      List.Perm ((getOrderedChain ps).map fun l => l.giver) (ps.map fun p => p.name) ∧
      (∀ l ∈ getOrderedChain ps, LinkSound ps l) := by
  by_cases hps0 : ps = []
  · subst hps0
    exact ⟨[], by simp [getOrderedChain], List.Perm.refl _, by simp,
      by simp [getOrderedChain], by simp [getOrderedChain],
      by simp [getOrderedChain], getOrderedChain_sound []⟩
  · have hvalid := validParticipantsOf_eq_self ps hadmin hne htotal
    have hlen0 : ¬ ps.length = 0 := fun h => hps0 (List.length_eq_zero.mp h)
    have hclosed0 : UnvisitedClosed ps [] := by
      intro p _ _
      simp
    obtain ⟨p₀, hp₀⟩ : ∃ p₀, ps.head? = some p₀ := by
      cases ps with
      | nil => exact absurd rfl hps0
      | cons a l => exact ⟨a, rfl⟩
    have hp₀mem : p₀ ∈ ps := List.mem_of_mem_head? hp₀
    rcases walk_orbit ps hnd htotal hinj hnofix p₀ hp₀mem [] [] hclosed0 (by simp)
      with ⟨c₀, hw₀, hc₀head, hc₀len, hc₀cyc, hc₀nd, hc₀unv, hc₀surj⟩
    have hmemc₀ := isCycleOf_mem ps c₀ hc₀cyc
    have hfuel : (ps.filter fun p =>
        decide (p.id ∉ (c₀.map fun p => p.id).reverse ++ ([] : List String))).length
        < ps.length + 1 :=
      Nat.lt_succ_of_le (List.Sublist.length_le (List.filter_sublist ps))
    rcases remainingLoop_cycles ps hnd htotal hinj hnofix
        ((ps.filter fun p =>
          decide (p.id ∉ (c₀.map fun p => p.id).reverse ++ ([] : List String))).length)
        (ps.length + 1)
        ((c₀.map fun p => p.id).reverse ++ []) (([] : List Link) ++ cycleLinks c₀)
        (le_refl _) hfuel
        (unvisitedClosed_extend ps hnd htotal hinj c₀ [] hclosed0 hmemc₀ hc₀surj)
      with ⟨cycles₂, heq₂, hperm₂, hcyc₂⟩
    have hsplit := filter_split_perm ps hnd c₀ [] hmemc₀ hc₀nd hc₀unv
    have hfilter_all : ps.filter (fun p => decide (p.id ∉ ([] : List String))) = ps := by
      apply List.filter_eq_self.mpr
      intro a _
      simp
    have hp3 : List.Perm (ps.filter fun p => decide (p.id ∉ ([] : List String))) ps := by
      rw [hfilter_all]
    have hperm_total : List.Perm ((c₀ :: cycles₂).flatten) ps := by
      simp only [List.flatten_cons]
      exact (hperm₂.append_left c₀).trans (hsplit.trans hp3)
    have hchain_eq : getOrderedChain ps = ((c₀ :: cycles₂).map cycleLinks).flatten := by
      rw [getOrderedChain]
      rw [if_neg hlen0]
      simp only [hvalid]
      rw [if_neg (by simp [List.isEmpty_iff, hps0])]
      rw [hp₀, hw₀]
      exact heq₂.trans (by simp)
    refine ⟨c₀ :: cycles₂, hchain_eq, hperm_total, ?_, ?_, ?_, ?_, getOrderedChain_sound ps⟩
    · intro cc hcc
      rcases List.mem_cons.mp hcc with rfl | hmem₂
      · exact ⟨hc₀len, hc₀cyc⟩
      · exact hcyc₂ cc hmem₂
    · rw [hchain_eq, flatten_cycleLinks_length]
      exact hperm_total.length_eq
    · rw [hchain_eq]
      exact (flatten_cycleLinks_receiverIds _).trans (hperm_total.map _)
    · rw [hchain_eq, flatten_cycleLinks_givers]
      exact hperm_total.map _

/-- A concrete four-participant store forming two disjoint 2-cycles,
used as the witness input for the cycle-decomposition theorem. -/
def exampleStore : List Participant :=
  [⟨"A", "Alice", some "B"⟩, ⟨"B", "Bob", some "A"⟩,
   ⟨"C", "Cara", some "D"⟩, ⟨"D", "Dan", some "C"⟩]

/-- Witness for C2 at a concrete input: the two disjoint 2-cycles
A-B and C-D form a valid mapping with distinct non-admin nonempty
identifiers, so the cycle decomposition of the chain exists. -/
theorem getOrderedChain_valid_mapping_witness :
    ∃ cycles : List (List Participant),
      getOrderedChain exampleStore = (cycles.map cycleLinks).flatten ∧
      List.Perm cycles.flatten exampleStore ∧
      (∀ c ∈ cycles, 2 ≤ c.length ∧ IsCycleOf exampleStore c) ∧
      (getOrderedChain exampleStore).length = exampleStore.length ∧
      List.Perm ((getOrderedChain exampleStore).map fun l => l.receiverId)
        (exampleStore.map fun p => p.id) ∧
      List.Perm ((getOrderedChain exampleStore).map fun l => l.giver)
        (exampleStore.map fun p => p.name) ∧
      (∀ l ∈ getOrderedChain exampleStore, LinkSound exampleStore l) :=
  getOrderedChain_valid_mapping exampleStore (by decide) (by decide) (by decide)
    (by decide) (by decide) (by decide)
